import Mathlib

/-!
Shallow embedding of `wherehows-web/app/constants/dataset-compliance.ts`
(WhereHows dataset-compliance constants module) and proofs of the spec's
claims about it.

JavaScript objects are modelled as follows:
* the wizard step maps (objects with numeric keys) become partial maps
  `Nat → Option IWizardStep`, with JS object-spread modelled as a
  right-biased merge;
* compliance entities (objects with arbitrary string keys and
  heterogeneous values) become ordered association lists
  `List (String × JSValue)`, where property access returns the first
  matching key and a missing key models JS `undefined`.
-/

namespace DatasetCompliance

/-- A wizard step descriptor, the `{ name: string }` objects stored in the
step maps of the source. -/
structure IWizardStep where
  name : String
deriving DecidableEq, Repr

/-- The default sequence of edit steps in the compliance policy component,
translating the object literal `complianceSteps` of the source: keys 0, 1, 2
map to the three named steps and every other key is absent. -/
def complianceSteps : Nat → Option IWizardStep
  | 0 => some ⟨"editCompliancePolicy"⟩
  | 1 => some ⟨"editPurgePolicy"⟩
  | 2 => some ⟨"editDatasetClassification"⟩
  | _ => none

/-- The one-entry override object `piiTaggingStep` defined inside
`getComplianceSteps` in the source: `{ 0: { name: 'editDatasetLevelCompliancePolicy' } }`. -/
def piiTaggingStep : Nat → Option IWizardStep
  | 0 => some ⟨"editDatasetLevelCompliancePolicy"⟩
  | _ => none

/-- JS object spread `{ ...a, ...b }` on numeric-keyed step maps: the result
holds `b`'s entry where `b` has one, and `a`'s entry otherwise. -/
def spread (a b : Nat → Option IWizardStep) : Nat → Option IWizardStep :=
  fun k =>
    match b k with
    | some v => some v
    | none => a k

/-- Translation of `getComplianceSteps` from the source: for a schema-less
dataset (`hasSchema = false`) it returns `{ ...complianceSteps, ...piiTaggingStep }`,
otherwise it returns `complianceSteps`. The default argument is `true`. -/
def getComplianceSteps (hasSchema : Bool := true) : Nat → Option IWizardStep :=
  if !hasSchema then
    spread complianceSteps piiTaggingStep
  else
    complianceSteps

/-- A JavaScript value that may sit in a compliance-entity attribute. The
constructors cover the shapes the strict-equality claims distinguish:
booleans, strings (such as `'true'`) and numbers (such as `1`). -/
inductive JSValue where
  | vBool (b : Bool)
  | vStr (s : String)
  | vNum (n : Int)
deriving DecidableEq, Repr

/-- A compliance entity (`IComplianceEntity`) modelled as a JS object: an
ordered list of string-keyed attributes. A key not in the list models an
absent / `undefined` property. -/
def IComplianceEntity : Type := List (String × JSValue)

instance : DecidableEq IComplianceEntity :=
  inferInstanceAs (DecidableEq (List (String × JSValue)))

instance : Membership (String × JSValue) IComplianceEntity :=
  inferInstanceAs (Membership (String × JSValue) (List (String × JSValue)))

/-- JS property access `e[k]`: the value at the first occurrence of key `k`,
or `none` (JS `undefined`) when the key is absent. -/
def jsGet (k : String) : IComplianceEntity → Option JSValue
  | [] => none
  | (k', v) :: rest => if k' = k then some v else jsGet k rest

/-- Translation of `isEditableComplianceEntity` from the source: destructures
`readonly` and returns `readonly !== true`. JS strict inequality against the
boolean literal `true` becomes inequality with `some (JSValue.vBool true)`;
any other value, including absence, the string `'true'` or the number `1`,
compares unequal. -/
def isEditableComplianceEntity (e : IComplianceEntity) : Bool :=
  decide (jsGet "readonly" e ≠ some (JSValue.vBool true))

/-- Modelled from the spec: `arrayMap` (from `wherehows-web/utils/array`,
not present under the provided sources) applies a function to each element of
a list, preserving order and length. -/
def arrayMap {α β : Type} (f : α → β) : List α → List β :=
  fun xs => xs.map f

/-- Modelled from the spec: `arrayFilter` (from `wherehows-web/utils/array`,
not present under the provided sources) keeps the subsequence of elements
satisfying the predicate, preserving relative order. -/
def arrayFilter {α : Type} (p : α → Bool) : List α → List α :=
  fun xs => xs.filter p

/-- Modelled from the spec: `fleece` (from `wherehows-web/utils/object`,
not present under the provided sources) is a pure
copy-construct-without-field operation: it returns a new object equal to its
input with the listed keys deleted and every other attribute preserved. -/
def fleece (keys : List String) (e : IComplianceEntity) : IComplianceEntity :=
  e.filter (fun kv => !(keys.contains kv.1))

/-- Translation of `filterEditableEntities` from the source:
`arrayFilter(isEditableComplianceEntity)(entities)`. -/
def filterEditableEntities (entities : List IComplianceEntity) : List IComplianceEntity :=
  arrayFilter isEditableComplianceEntity entities

/-- Translation of `removeReadonlyAttr` from the source:
`arrayMap(fleece(['readonly']))`. -/
def removeReadonlyAttr : List IComplianceEntity → List IComplianceEntity :=
  arrayMap (fleece ["readonly"])

/-- A compliance data type catalog entry; the source destructures exactly
`id` and `title` from it. -/
structure IComplianceDataType where
  id : String
  title : String
deriving DecidableEq, Repr

/-- A dropdown option (`IFieldIdentifierOption`); `isDisabled` is optional
and `none` models the field being absent. -/
structure IFieldIdentifierOption where
  value : String
  label : String
  isDisabled : Option Bool := none
deriving DecidableEq, Repr

/-- Translation of `getFieldIdentifierOption` from the source: destructures
`id` and `title` and returns `{ value: id, label: title }` with no
`isDisabled` set. -/
def getFieldIdentifierOption (d : IComplianceDataType) : IFieldIdentifierOption :=
  { value := d.id, label := d.title }

/-- Translation of `getFieldIdentifierOptions` from the source:
`arrayMap(getFieldIdentifierOption)`. -/
def getFieldIdentifierOptions : List IComplianceDataType → List IFieldIdentifierOption :=
  arrayMap getFieldIdentifierOption

end DatasetCompliance

namespace DatasetCompliance

/-- C1 counterexample: contrary to the claim that `getComplianceSteps(false)`
is a single-step map with keys 1 and 2 absent, the returned map does contain
entries at keys 1 and 2. -/
theorem getComplianceSteps_false_not_single_step :
    getComplianceSteps false 1 = some ⟨"editPurgePolicy"⟩ ∧
    getComplianceSteps false 2 = some ⟨"editDatasetClassification"⟩ := by
  constructor <;> rfl

/-- C1 (amended): for the schema-less case, `getComplianceSteps(false)` maps
key 0 to `{name: 'editDatasetLevelCompliancePolicy'}`, but keys 1 and 2 are
retained from the default map, so the wizard stays three-step in this mode. -/
theorem getComplianceSteps_false_overrides_key_zero :
    getComplianceSteps false 0 = some ⟨"editDatasetLevelCompliancePolicy"⟩ ∧
    getComplianceSteps false 1 = complianceSteps 1 ∧
    getComplianceSteps false 2 = complianceSteps 2 := by
  refine ⟨rfl, rfl, rfl⟩

/-- C2: `getComplianceSteps(false)` is exactly the three-entry map
`{0: editDatasetLevelCompliancePolicy, 1: editPurgePolicy, 2: editDatasetClassification}`:
key 0 is overridden relative to the defaults, keys 1 and 2 are retained, and
no other key is present. -/
theorem getComplianceSteps_false_exact :
    getComplianceSteps false 0 = some ⟨"editDatasetLevelCompliancePolicy"⟩ ∧
    getComplianceSteps false 1 = some ⟨"editPurgePolicy"⟩ ∧
    getComplianceSteps false 2 = some ⟨"editDatasetClassification"⟩ ∧
    ∀ k : Nat, 2 < k → getComplianceSteps false k = none := by
  refine ⟨rfl, rfl, rfl, ?_⟩
  intro k hk
  match k, hk with
  | (n + 3), _ => rfl

/-- C2 witness: the general theorem applied at the concrete key 5. -/
theorem getComplianceSteps_false_exact_witness :
    getComplianceSteps false 5 = none :=
  getComplianceSteps_false_exact.2.2.2 5 (by decide)

/-- C3: `getComplianceSteps` with no argument (default `hasSchema = true`)
returns exactly `{0: editCompliancePolicy, 1: editPurgePolicy, 2: editDatasetClassification}`,
and `getComplianceSteps true` is the same map. -/
theorem getComplianceSteps_default_exact :
    getComplianceSteps = getComplianceSteps true ∧
    getComplianceSteps true 0 = some ⟨"editCompliancePolicy"⟩ ∧
    getComplianceSteps true 1 = some ⟨"editPurgePolicy"⟩ ∧
    getComplianceSteps true 2 = some ⟨"editDatasetClassification"⟩ ∧
    ∀ k : Nat, 2 < k → getComplianceSteps true k = none := by
  refine ⟨rfl, rfl, rfl, rfl, ?_⟩
  intro k hk
  match k, hk with
  | (n + 3), _ => rfl

/-- C3 witness: the general theorem applied at the concrete key 7. -/
theorem getComplianceSteps_default_exact_witness :
    getComplianceSteps true 7 = none :=
  getComplianceSteps_default_exact.2.2.2.2 7 (by decide)

/-- C9: for every value of `hasSchema`, the step map is non-empty and densely
keyed: its key set is exactly `{0, ..., n-1}` for some `n ≥ 1`, and the entry
at key 0 is a compliance-policy editing step. -/
theorem getComplianceSteps_dense_nonempty (hasSchema : Bool) :
    ∃ n : Nat, 1 ≤ n ∧
      (∀ k : Nat, (getComplianceSteps hasSchema k).isSome = true ↔ k < n) ∧
      (getComplianceSteps hasSchema 0 = some ⟨"editCompliancePolicy"⟩ ∨
        getComplianceSteps hasSchema 0 = some ⟨"editDatasetLevelCompliancePolicy"⟩) := by
  refine ⟨3, by decide, ?_, ?_⟩
  · intro k
    cases hasSchema <;>
      match k with
      | 0 => simp [getComplianceSteps, spread, complianceSteps, piiTaggingStep]
      | 1 => simp [getComplianceSteps, spread, complianceSteps, piiTaggingStep]
      | 2 => simp [getComplianceSteps, spread, complianceSteps, piiTaggingStep]
      | (n + 3) =>
        simp [getComplianceSteps, spread, complianceSteps, piiTaggingStep]
  · cases hasSchema
    · exact Or.inr rfl
    · exact Or.inl rfl

/-- Property lookup after `fleece`: a deleted key reads as absent, every
other key reads exactly as in the original entity. -/
theorem jsGet_fleece (keys : List String) (k : String) (e : IComplianceEntity) :
    jsGet k (fleece keys e) = if k ∈ keys then none else jsGet k e := by
  induction e with
  | nil =>
    by_cases h : k ∈ keys <;> simp [fleece, jsGet, h]
  | cons kv rest ih =>
    obtain ⟨k', v⟩ := kv
    by_cases h1 : k' ∈ keys
    · have hstep : fleece keys ((k', v) :: rest) = fleece keys rest := by
        simp [fleece, List.filter_cons, h1]
      rw [hstep, ih]
      by_cases h2 : k ∈ keys
      · simp [h2]
      · have hne : k' ≠ k := fun he => h2 (he ▸ h1)
        simp [h2, jsGet, hne]
    · have hstep : fleece keys ((k', v) :: rest) = (k', v) :: fleece keys rest := by
        simp [fleece, List.filter_cons, h1]
      rw [hstep]
      by_cases h3 : k' = k
      · subst h3
        simp [jsGet, h1, ih]
      · simp [jsGet, h3, ih]

/-- Applying `fleece` with the same key list twice deletes nothing new. -/
theorem fleece_fleece (keys : List String) (e : IComplianceEntity) :
    fleece keys (fleece keys e) = fleece keys e := by
  simp [fleece, List.filter_filter]

/-- C4: `getFieldIdentifierOption` extracts `id` as `value` and `title` as
`label` with no `isDisabled` set, and `getFieldIdentifierOptions` maps it over
the input preserving length and per-index correspondence. -/
theorem getFieldIdentifierOption_spec :
    (∀ d : IComplianceDataType,
      (getFieldIdentifierOption d).value = d.id ∧
      (getFieldIdentifierOption d).label = d.title ∧
      (getFieldIdentifierOption d).isDisabled = none) ∧
    (∀ xs : List IComplianceDataType,
      (getFieldIdentifierOptions xs).length = xs.length ∧
      ∀ i : Nat, (getFieldIdentifierOptions xs)[i]? = (xs[i]?).map getFieldIdentifierOption) := by
  refine ⟨fun d => ⟨rfl, rfl, rfl⟩, fun xs => ⟨?_, ?_⟩⟩
  · simp [getFieldIdentifierOptions, arrayMap]
  · intro i
    simp [getFieldIdentifierOptions, arrayMap]

/-- C5: `isEditableComplianceEntity` returns `false` exactly when the
`readonly` attribute is strictly equal to the boolean `true`; absence, the
boolean `false`, the string `'true'` and the number `1` all count as
editable. -/
theorem isEditableComplianceEntity_strict :
    (∀ e : IComplianceEntity,
      isEditableComplianceEntity e = false ↔
        jsGet "readonly" e = some (JSValue.vBool true)) ∧
    isEditableComplianceEntity ([("readonly", JSValue.vBool true)] : IComplianceEntity) = false ∧
    isEditableComplianceEntity ([] : IComplianceEntity) = true ∧
    isEditableComplianceEntity ([("readonly", JSValue.vBool false)] : IComplianceEntity) = true ∧
    isEditableComplianceEntity ([("readonly", JSValue.vStr "true")] : IComplianceEntity) = true ∧
    isEditableComplianceEntity ([("readonly", JSValue.vNum 1)] : IComplianceEntity) = true := by
  refine ⟨fun e => ?_, by decide, by decide, by decide, by decide, by decide⟩
  simp [isEditableComplianceEntity]

/-- C6: `filterEditableEntities` returns the subsequence of editable
entities: it is a sublist of the input (relative order preserved), no longer
than the input, and membership is exactly membership in the input together
with editability. -/
theorem filterEditableEntities_spec (es : List IComplianceEntity) :
    List.Sublist (filterEditableEntities es) es ∧
    (filterEditableEntities es).length ≤ es.length ∧
    ∀ e : IComplianceEntity,
      e ∈ filterEditableEntities es ↔ e ∈ es ∧ isEditableComplianceEntity e = true := by
  refine ⟨List.filter_sublist es, List.length_filter_le _ es, fun e => ?_⟩
  simp [filterEditableEntities, arrayFilter, List.mem_filter]

/-- C7: `removeReadonlyAttr` keeps the list length and order, returns
entities in which the `readonly` key is absent, and preserves every
non-`readonly` attribute of the entity at each position. (The embedding is
pure, so the input list is never mutated.) -/
theorem removeReadonlyAttr_spec (es : List IComplianceEntity) :
    (removeReadonlyAttr es).length = es.length ∧
    (∀ e : IComplianceEntity, e ∈ removeReadonlyAttr es → jsGet "readonly" e = none) ∧
    (∀ i : Nat, ∀ k : String, k ≠ "readonly" →
      ((removeReadonlyAttr es)[i]?).map (jsGet k) = (es[i]?).map (jsGet k)) := by
  refine ⟨by simp [removeReadonlyAttr, arrayMap], fun e he => ?_, fun i k hk => ?_⟩
  · simp only [removeReadonlyAttr, arrayMap, List.mem_map] at he
    obtain ⟨e₀, _, rfl⟩ := he
    simp [jsGet_fleece]
  · simp only [removeReadonlyAttr, arrayMap, List.getElem?_map, Option.map_map]
    cases h : es[i]? with
    | none => rfl
    | some e =>
      simp [Function.comp, jsGet_fleece, hk]

/-- C7 witness: the absence and preservation clauses applied at a concrete
entity list, a concrete member, index 0 and the non-readonly key `name`. -/
theorem removeReadonlyAttr_spec_witness :
    jsGet "readonly" ([("name", JSValue.vStr "memberId")] : IComplianceEntity) = none ∧
    ((removeReadonlyAttr
        [[("name", JSValue.vStr "memberId"), ("readonly", JSValue.vBool true)]])[0]?).map
      (jsGet "name") =
    (([[("name", JSValue.vStr "memberId"), ("readonly", JSValue.vBool true)]] :
        List IComplianceEntity)[0]?).map (jsGet "name") :=
  ⟨(removeReadonlyAttr_spec
      [[("name", JSValue.vStr "memberId"), ("readonly", JSValue.vBool true)]]).2.1
      [("name", JSValue.vStr "memberId")] (by decide),
   (removeReadonlyAttr_spec
      [[("name", JSValue.vStr "memberId"), ("readonly", JSValue.vBool true)]]).2.2 0 "name"
    (by decide)⟩

/-- C8: `removeReadonlyAttr` is idempotent: applying it to its own output
returns an equal list. -/
theorem removeReadonlyAttr_idempotent (es : List IComplianceEntity) :
    removeReadonlyAttr (removeReadonlyAttr es) = removeReadonlyAttr es := by
  simp only [removeReadonlyAttr, arrayMap, List.map_map]
  induction es with
  | nil => rfl
  | cons e rest ih =>
    simp only [List.map_cons, List.map_map] at ih ⊢
    rw [ih]
    simp [Function.comp, fleece_fleece]

/-- C10: every entity produced by `removeReadonlyAttr` is editable (the
`readonly` key is gone, hence not strictly `true`), so filtering for editable
entities after stripping is the identity on the stripped list. -/
theorem removeReadonlyAttr_all_editable (es : List IComplianceEntity) :
    (∀ e : IComplianceEntity,
      e ∈ removeReadonlyAttr es → isEditableComplianceEntity e = true) ∧
    filterEditableEntities (removeReadonlyAttr es) = removeReadonlyAttr es := by
  have hall : ∀ e : IComplianceEntity,
      e ∈ removeReadonlyAttr es → isEditableComplianceEntity e = true := by
    intro e he
    simp only [removeReadonlyAttr, arrayMap, List.mem_map] at he
    obtain ⟨e₀, _, rfl⟩ := he
    simp [isEditableComplianceEntity, jsGet_fleece]
  exact ⟨hall, List.filter_eq_self.mpr hall⟩

/-- C10 witness: the editability clause applied to the stripped form of a
concrete read-only entity. -/
theorem removeReadonlyAttr_all_editable_witness :
    isEditableComplianceEntity ([] : IComplianceEntity) = true :=
  (removeReadonlyAttr_all_editable [[("readonly", JSValue.vBool true)]]).1 []
    (by decide)

end DatasetCompliance
